import Mathlib

/-!
Shallow embedding of the gamified_bubbles analytics pipeline
(scripts 02_reconstruct_inventory.py, 03_compute_volatility.py,
04_feedback_trading.py).

Modelling conventions:
* A parsed CSV cell is an Option value: none models a NaN / NaT produced by
  pandas to_numeric / to_datetime with coercing errors.
* Numeric values are rationals; the per-session log-return layer is generic
  in the value type and a logarithm function, and is instantiated at the
  real numbers with Real.log in the theorems.
* Cells of the derived return columns are FloatV values, a four-way model
  of IEEE doubles: NaN, +inf, -inf, or a finite number.  np.log of a
  negative price is NaN and of a zero price is -inf; pct_change across a
  zero previous price is +inf, -inf or NaN by the sign of the numerator.
  pandas skipna statistics skip NaN but keep +-inf, which drives them to
  NaN; the realized-volatility model reproduces that exactly.  For the
  rolling window statistic, pandas' online accumulator makes the cells
  after an infinity NaN in a version-dependent region (contamination until
  an all-NaN reset window, plus an equal-values shortcut), so the rolling
  model is window-local and the rolling claim is settled under a
  no-zero-price hypothesis, under which no infinity can arise and the
  window-local rule is exact in every pandas version.
* pandas sort_values on a list of keys is a stable lexicographic sort, so
  the rows of one session in the sorted frame are that session's rows
  stably sorted by timestamp; the model sorts each session's rows directly
  with a stable insertion sort on the timestamp.
-/

/-! ## Definitions: the embedded pipelines and concrete ledgers -/

/-- One row of transactions_clean.csv, with the columns the three analysis
scripts read.  Cells parsed with coercing errors are Option-valued. -/
structure Tx where
  txid : ℕ
  session : ℕ
  ts : Option ℚ
  price : Option ℚ
  quantity : Option ℚ
  bid_trader : ℕ
  ask_trader : ℕ
deriving DecidableEq, Repr

/-- Price cell of a row, only meaningful after the dropna on price. -/
def pv (t : Tx) : ℚ := t.price.getD 0

/-- Quantity cell of a row, only meaningful after the dropna on quantity. -/
def qv (t : Tx) : ℚ := t.quantity.getD 0

/-- Timestamp cell of a row, only meaningful after the dropna on timestamp. -/
def tsv (t : Tx) : ℚ := t.ts.getD 0

/-- The optional self-trade filter shared by all three scripts:
tx[tx.bid_trader_uuid != tx.ask_trader_uuid] when the flag is set. -/
def selfFilter (flag : Bool) (led : List Tx) : List Tx :=
  if flag then led.filter (fun t => t.bid_trader ≠ t.ask_trader) else led

/-- Rows kept by the inventory script: after the optional self-trade filter,
dropna(subset=[quantity]). -/
def keepInv (flag : Bool) (led : List Tx) : List Tx :=
  (selfFilter flag led).filter (fun t => t.quantity.isSome)

/-- The concatenated legs table: one (session, trader, inv_change) triple per
buyer leg (+quantity) followed by one per seller leg (-quantity), as built by
concat of the bids and asks frames. -/
def invLegs (flag : Bool) (led : List Tx) : List (ℕ × ℕ × ℚ) :=
  (keepInv flag led).map (fun t => (t.session, t.bid_trader, qv t)) ++
  (keepInv flag led).map (fun t => (t.session, t.ask_trader, -qv t))

/-- net_inventory of a (session, trader) pair: the groupby-sum of inv_change
over the legs with that key. -/
def netInventory (flag : Bool) (led : List Tx) (s tr : ℕ) : ℚ :=
  (((invLegs flag led).filter (fun l => l.1 = s ∧ l.2.1 = tr)).map
    (fun l => l.2.2)).sum

/-- Net contribution of a single kept transaction to a (session, trader)
cell: its buyer leg plus its seller leg. -/
def contrib (t : Tx) (s tr : ℕ) : ℚ :=
  (if t.session = s ∧ t.bid_trader = tr then qv t else 0) +
  (if t.session = s ∧ t.ask_trader = tr then -qv t else 0)

/-- Stable sort of a session's rows by timestamp.  pandas sort_values on
[session, timestamp] is a stable lexicographic sort, so inside each session
rows are ordered by timestamp with ties kept in ledger order, which is what
a stable insertion sort produces. -/
def sortTs (L : List Tx) : List Tx :=
  L.insertionSort (fun a b => tsv a ≤ tsv b)

/-- Rows kept by 03_compute_volatility.py before sorting: optional
self-trade filter, then dropna(subset=[price, timestamp_dt]). -/
def keep03 (flag : Bool) (led : List Tx) : List Tx :=
  (selfFilter flag led).filter (fun t => t.price.isSome ∧ t.ts.isSome)

/-- The time-ordered rows of one session in 03_compute_volatility.py. -/
def rows03 (flag : Bool) (led : List Tx) (s : ℕ) : List Tx :=
  sortTs ((keep03 flag led).filter (fun t => t.session = s))

/-- Session-ordered price series of 03 (all prices are parsed after the
dropna). -/
def prices03 (flag : Bool) (led : List Tx) (s : ℕ) : List ℚ :=
  (rows03 flag led s).map pv

/-- Rows kept by 04_feedback_trading.py before sorting: optional self-trade
filter, then dropna(subset=[price, quantity, timestamp_dt]). -/
def keep04 (flag : Bool) (led : List Tx) : List Tx :=
  (selfFilter flag led).filter
    (fun t => t.price.isSome ∧ t.quantity.isSome ∧ t.ts.isSome)

/-- The time-ordered rows of one session in 04_feedback_trading.py. -/
def rows04 (flag : Bool) (led : List Tx) (s : ℕ) : List Tx :=
  sortTs ((keep04 flag led).filter (fun t => t.session = s))

/-- Tail worker for withPC: pairs each row with its price change from the
previous row. -/
def withPCGo : Tx → List Tx → List (Option ℚ × Tx)
  | _, [] => []
  | prev, t :: ts => (some (pv t - pv prev), t) :: withPCGo t ts

/-- groupby(session)[price].diff() aligned with the session rows: the first
row of a session gets an undefined price change, every later row gets
price[i] - price[i-1]. -/
def withPC : List Tx → List (Option ℚ × Tx)
  | [] => []
  | t :: ts => (none, t) :: withPCGo t ts

/-- Lookup of the price-change cell of a given transaction id inside one
session's diffed rows (none when the row is absent or its diff is NaN). -/
def pcLookup (rows : List Tx) (id : ℕ) : Option ℚ :=
  (withPC rows).findSome? (fun x => if x.2.txid = id then x.1 else none)

/-- The raw session-ordered price difference for a transaction, taken over
the rows the volatility script keeps (the ReturnSeriesBuilder ordering). -/
def volPC (flag : Bool) (led : List Tx) (s id : ℕ) : Option ℚ :=
  pcLookup (rows03 flag led s) id

/-- The price_change column value the feedback script attaches to a
transaction, computed over the rows that script keeps. -/
def fbPC (flag : Bool) (led : List Tx) (s id : ℕ) : Option ℚ :=
  pcLookup (rows04 flag led s) id

/-- A float cell of a derived column, as IEEE doubles behave in numpy and
pandas: NaN, one of the two infinities, or a finite value. -/
inductive FloatV (α : Type) where
  | nan : FloatV α
  | pinf : FloatV α
  | ninf : FloatV α
  | val : α → FloatV α
deriving DecidableEq, Repr

/-- Is the cell a NaN?  pandas dropna / skipna and rolling min_periods
counting treat exactly these cells as missing; infinities count as present. -/
def isNaN {α : Type} : FloatV α → Bool
  | FloatV.nan => true
  | _ => false

/-- Is the cell one of the two infinities? -/
def isInf {α : Type} : FloatV α → Bool
  | FloatV.pinf => true
  | FloatV.ninf => true
  | _ => false

/-- Is the cell a finite value? -/
def isVal {α : Type} : FloatV α → Bool
  | FloatV.val _ => true
  | _ => false

/-- The finite value of a cell, when it has one. -/
def toFin {α : Type} : FloatV α → Option α
  | FloatV.val x => some x
  | _ => none

/-- np.log on a parsed price: the finite value ln p for a positive price,
-inf for a zero price, NaN for a negative price.  Generic in the logarithm
so that the series combinators stay executable; theorems instantiate ln
with Real.log. -/
def logPriceF {α : Type} (ln : ℚ → α) (p : ℚ) : FloatV α :=
  if 0 < p then FloatV.val (ln p)
  else if p = 0 then FloatV.ninf else FloatV.nan

/-- IEEE float subtraction lifted to cells: first argument minus second.
NaN propagates; inf - inf of equal signs is NaN; an infinity minus a finite
value (or an infinity of the other sign) keeps its sign; a finite value
minus an infinity flips the sign. -/
def subF {α : Type} [Sub α] : FloatV α → FloatV α → FloatV α
  | FloatV.nan, _ => FloatV.nan
  | _, FloatV.nan => FloatV.nan
  | FloatV.pinf, FloatV.pinf => FloatV.nan
  | FloatV.pinf, _ => FloatV.pinf
  | FloatV.ninf, FloatV.ninf => FloatV.nan
  | FloatV.ninf, _ => FloatV.ninf
  | FloatV.val _, FloatV.pinf => FloatV.ninf
  | FloatV.val _, FloatV.ninf => FloatV.pinf
  | FloatV.val b, FloatV.val a => FloatV.val (b - a)

/-- Tail worker for diffF. -/
def diffFGo {α : Type} [Sub α] : FloatV α → List (FloatV α) → List (FloatV α)
  | _, [] => []
  | prev, x :: xs => subF x prev :: diffFGo x xs

/-- groupby(session)[log_price].diff(): the first position is NaN, every
later position is cell[i] - cell[i-1] under IEEE float arithmetic. -/
def diffF {α : Type} [Sub α] : List (FloatV α) → List (FloatV α)
  | [] => []
  | x :: xs => FloatV.nan :: diffFGo x xs

/-- One pct_change cell: cur / prev - 1 on parsed (finite) prices.  A zero
previous price divides to +inf, -inf or NaN by the sign of cur (the parsed
zero is +0.0), and subtracting 1 keeps the non-finite class. -/
def pctCellF (prev cur : ℚ) : FloatV ℚ :=
  if prev = 0 then
    (if 0 < cur then FloatV.pinf else if cur < 0 then FloatV.ninf
     else FloatV.nan)
  else FloatV.val (cur / prev - 1)

/-- Tail worker for pctChangeF. -/
def pctChangeFGo : ℚ → List ℚ → List (FloatV ℚ)
  | _, [] => []
  | prev, p :: ps => pctCellF prev p :: pctChangeFGo p ps

/-- groupby(session)[price].pct_change(): price[i] / price[i-1] - 1 with a
NaN first position (the kept price column itself has no NaN after the
dropna, so no forward-filling is involved). -/
def pctChangeF : List ℚ → List (FloatV ℚ)
  | [] => []
  | p :: ps => FloatV.nan :: pctChangeFGo p ps

/-- Collects a window of cells into its values when none of them is NaN. -/
def allSome {α : Type} : List (Option α) → Option (List α)
  | [] => some []
  | none :: _ => none
  | some a :: xs => (allSome xs).map (fun ws => a :: ws)

/-- Sample variance with Bessel's correction, as the std computations of
pandas produce it (squared): undefined for fewer than two observations
(ddof = 1 makes the one-observation std NaN), otherwise the sum of squared
deviations from the mean divided by n - 1.  The reported standard deviation
is its square root, which preserves definedness and equality. -/
def sampleVar {α : Type} [Field α] (l : List α) : Option α :=
  if l.length < 2 then none
  else some (((l.map (fun x => (x - l.sum / (l.length : α)) ^ 2)).sum) /
    ((l.length : α) - 1))

/-- Mean of a list, written from the specification's wording. -/
def specMean {α : Type} [Field α] (l : List α) : α := l.sum / (l.length : α)

/-- Sample variance as the specification words it: squared deviations from
the mean, averaged with divisor n - 1 (Bessel's correction).  Its square
root is the specification's sample standard deviation. -/
def specSampleVar {α : Type} [Field α] (l : List α) : α :=
  (l.map (fun x => (x - specMean l) ^ 2)).sum / ((l.length : α) - 1)

/-- Window-local rolling sample variance over the finite-value view of a
column: position i is undefined unless the positional window of the last W
cells exists in full and every cell in it carries a finite value, in which
case it is the sample variance of those W values.  This is the combinator
rollingVarF builds on; see its comment for the faithfulness scope. -/
def rollingVar {α : Type} [Field α] (W : ℕ) (l : List (Option α)) :
    List (Option α) :=
  (List.range l.length).map (fun i =>
    if i + 1 < W then none
    else (allSome ((l.take (i + 1)).drop (i + 1 - W))).bind
      (fun ws => sampleVar ws))

/-- The most recent W defined cells at or before position i — the selection
the specification describes for the rolling window. -/
def lastWDefined {α : Type} (W : ℕ) (l : List (Option α)) (i : ℕ) : List α :=
  (((l.take (i + 1)).filterMap id).reverse.take W).reverse

/-- groupby(session)[log_ret].rolling(W).std() (squared), aligned with the
session rows.  A cell is NaN when its positional window is shorter than W,
when a window cell is NaN (then fewer than min_periods = W observations are
present), or when a window cell is infinite (an infinity drives the window
variance to NaN).  On columns free of infinities this window-local rule is
exactly pandas' behaviour in every version; once a zero price has produced
+-inf cells, pandas' online accumulator additionally turns a
version-dependent region of later cells into NaN, which is why the rolling
claim is stated under a no-zero-price hypothesis that rules infinities
out. -/
def rollingVarF {α : Type} [Field α] (W : ℕ) (col : List (FloatV α)) :
    List (Option α) :=
  (List.range col.length).map (fun i =>
    if i + 1 < W then none
    else (allSome (((col.take (i + 1)).drop (i + 1 - W)).map toFin)).bind
      (fun ws => sampleVar ws))

/-- pandas skipna sample standard deviation of a column (squared), as the
groupby agg std computes it: NaN cells are skipped, but an infinity is kept
by skipna and makes the statistic NaN; with fewer than two kept
observations the statistic is NaN (ddof = 1). -/
def realizedVar {α : Type} [Field α] (col : List (FloatV α)) : Option α :=
  if col.any isInf then none else sampleVar (col.filterMap toFin)

/-- The per-session log-return series of 03: diff of np.log of the kept,
time-ordered prices. -/
def lr03F {α : Type} [Sub α] (ln : ℚ → α) (flag : Bool) (led : List Tx)
    (s : ℕ) : List (FloatV α) :=
  diffF ((prices03 flag led s).map (logPriceF ln))

/-- The per-session rolling_vol_logret column of 03 (squared). -/
def rolling03F {α : Type} [Field α] (ln : ℚ → α) (W : ℕ) (flag : Bool)
    (led : List Tx) (s : ℕ) : List (Option α) :=
  rollingVarF W (lr03F ln flag led s)

/-- realized_vol_logret of a session (squared): groupby skipna std of the
log_ret column. -/
def realizedVarLogretF {α : Type} [Field α] (ln : ℚ → α) (flag : Bool)
    (led : List Tx) (s : ℕ) : Option α :=
  realizedVar (lr03F ln flag led s)

/-- realized_vol_ret of a session (squared): groupby skipna std of the ret
column. -/
def realizedVarRetF (flag : Bool) (led : List Tx) (s : ℕ) : Option ℚ :=
  realizedVar (pctChangeF (prices03 flag led s))

/-- One row of the feedback events table. -/
structure Ev where
  session : ℕ
  txid : ℕ
  trader : ℕ
  pc : ℚ
  sq : ℚ
  fb : ℚ
deriving DecidableEq, Repr

/-- The feedback indicator: 1 when a net buy follows an uptick or a net sell
follows a downtick, else 0 (np.where on the two conjunctions). -/
def fbInd (pc sq : ℚ) : ℚ :=
  if (0 < pc ∧ 0 < sq) ∨ (pc < 0 ∧ sq < 0) then 1 else 0

/-- The trade event a kept transaction row generates for one side: the buyer
side carries +quantity, the seller side -quantity, both share the row's
price change. -/
def evOf (buyerSide : Bool) (t : Tx) (c : ℚ) : Ev :=
  { session := t.session
    txid := t.txid
    trader := if buyerSide then t.bid_trader else t.ask_trader
    pc := c
    sq := if buyerSide then qv t else -qv t
    fb := fbInd c (if buyerSide then qv t else -qv t) }

/-- Buyer-leg events of a session: one per row whose price change is
defined (the dropna on price_change removes first-of-session rows). -/
def buyerEvents (rows : List Tx) : List Ev :=
  (withPC rows).filterMap (fun x => x.1.map (evOf true x.2))

/-- Seller-leg events of a session. -/
def sellerEvents (rows : List Tx) : List Ev :=
  (withPC rows).filterMap (fun x => x.1.map (evOf false x.2))

/-- All events of one session: the buyer block then the seller block, as the
concat of the buyer and seller frames produces (restricted to one session;
the summaries below are order-independent group sums). -/
def sessionEvents (flag : Bool) (led : List Tx) (s : ℕ) : List Ev :=
  buyerEvents (rows04 flag led s) ++ sellerEvents (rows04 flag led s)

/-- The distinct session ids among the rows the feedback script keeps. -/
def sessionKeys (flag : Bool) (led : List Tx) : List ℕ :=
  ((keep04 flag led).map (fun t => t.session)).dedup

/-- The full events table (as an unordered collection: every session's
events appear exactly once). -/
def allEvents (flag : Bool) (led : List Tx) : List Ev :=
  (sessionKeys flag led).flatMap (fun s => sessionEvents flag led s)

/-- Mean of the feedback column of a group of events. -/
def rateOf (evs : List Ev) : ℚ := ((evs.map Ev.fb).sum) / (evs.length : ℚ)

/-- feedback_by_session: groupby(session) size and mean over the events
table.  A groupby only produces rows for keys that occur among the events,
so sessions whose rows generated no event are absent. -/
def sessionSummary (flag : Bool) (led : List Tx) : List (ℕ × ℕ × ℚ) :=
  (sessionKeys flag led).filterMap (fun s =>
    let evs := sessionEvents flag led s
    if evs.isEmpty then none else some (s, evs.length, rateOf evs))

/-- The distinct (session, trader) keys among the events. -/
def traderKeys (flag : Bool) (led : List Tx) : List (ℕ × ℕ) :=
  ((allEvents flag led).map (fun e => (e.session, e.trader))).dedup

/-- feedback_by_session_trader: groupby(session, trader) size and mean over
the events table. -/
def traderSummary (flag : Bool) (led : List Tx) : List (ℕ × ℕ × ℕ × ℚ) :=
  (traderKeys flag led).map (fun k =>
    let evs := (allEvents flag led).filter
      (fun e => e.session = k.1 ∧ e.trader = k.2)
    (k.1, k.2, evs.length, rateOf evs))

def c1a : Tx := ⟨1, 1, some 1, some 100, some 5, 10, 20⟩
def c1b : Tx := ⟨2, 1, some 2, some 102, none, 10, 20⟩
def c1c : Tx := ⟨3, 1, some 3, some 101, some 4, 10, 20⟩

/-- Three-transaction ledger whose middle row has an unparsable quantity:
the volatility script keeps it, the feedback script drops it. -/
def ledC1 : List Tx := [c1a, c1b, c1c]

/-- Ledger for the C1 witness: every quantity parses. -/
def ledC1w : List Tx := [⟨1, 1, some 1, some 100, some 5, 10, 20⟩,
  ⟨2, 1, some 2, some 102, some 3, 10, 20⟩]

/-- Ledger for the C8 witness: one session with two trades. -/
def ledC8w : List Tx := [⟨1, 1, some 1, some 100, some 5, 10, 20⟩,
  ⟨2, 1, some 2, some 102, some 3, 10, 20⟩]

/-- Ledger for the C4 witness: a single-trade session has zero defined
returns, so both realized statistics are undefined rather than zero. -/
def ledC4w : List Tx := [⟨1, 3, some 1, some 100, some 5, 10, 20⟩]

/-- Ledger for the C4 counterexample: one session with prices 1, 0, 2, 3, 4;
the zero price makes np.log -inf, so the log-return column is
[NaN, -inf, +inf, finite, finite] and the ret column holds a +inf. -/
def ledC4 : List Tx := [⟨1, 1, some 1, some 1, some 1, 1, 2⟩,
  ⟨2, 1, some 2, some 0, some 1, 1, 2⟩,
  ⟨3, 1, some 3, some 2, some 1, 1, 2⟩,
  ⟨4, 1, some 4, some 3, some 1, 1, 2⟩,
  ⟨5, 1, some 5, some 4, some 1, 1, 2⟩]

/-- Ledger for the C2 counterexample: one session, six trades, the third
with a negative price (np.log gives NaN), so the log_returns are
[NaN, defined, NaN, NaN, defined, defined]. -/
def ledC2 : List Tx := [⟨1, 1, some 1, some 1, some 1, 1, 2⟩,
  ⟨2, 1, some 2, some 2, some 1, 1, 2⟩,
  ⟨3, 1, some 3, some (-1), some 1, 1, 2⟩,
  ⟨4, 1, some 4, some 4, some 1, 1, 2⟩,
  ⟨5, 1, some 5, some 5, some 1, 1, 2⟩,
  ⟨6, 1, some 6, some 6, some 1, 1, 2⟩]

/-- Ledger for the C2 witness: one session with three positive prices. -/
def ledC2w : List Tx := [⟨1, 1, some 1, some 1, some 1, 1, 2⟩,
  ⟨2, 1, some 2, some 2, some 1, 1, 2⟩,
  ⟨3, 1, some 3, some 4, some 1, 1, 2⟩]

/-- Ledger for the C7 counterexample: session 1 has prices 1, -1, -1; the
two negative-price rows are kept by the volatility script. -/
def ledC7 : List Tx := [⟨1, 1, some 1, some 1, some 1, 1, 2⟩,
  ⟨2, 1, some 2, some (-1), some 1, 1, 2⟩,
  ⟨3, 1, some 3, some (-1), some 1, 1, 2⟩]

/-- Single-row ledger for the C7 witness. -/
def ledC7w : List Tx := [⟨1, 1, some 1, some 5, some 1, 1, 2⟩]

/-- Ledger for the C6 witness: one session, two trades, price rising. -/
def ledC6w : List Tx := [⟨1, 1, some 1, some 100, some 5, 10, 20⟩,
  ⟨2, 1, some 2, some 102, some 5, 30, 40⟩]

/-- Single-transaction ledger for the C5 counterexample: session 7 exists
but generates no events. -/
def ledC5 : List Tx := [⟨1, 7, some 1, some 100, some 5, 1, 2⟩]

/-- Two-transaction ledger for the C5 witness. -/
def ledC5w : List Tx := [⟨1, 1, some 1, some 100, some 5, 10, 20⟩,
  ⟨2, 1, some 2, some 102, some 5, 10, 20⟩]

/-- Ledger for the C9 witness: one transaction with an unparsable
timestamp and a parsable quantity. -/
def ledC9w : List Tx := [⟨1, 1, none, some 100, some 5, 10, 20⟩]

/-- Two-transaction ledger for the C10 witness: price change 2, quantity 5. -/
def ledC10w : List Tx := [⟨1, 1, some 1, some 100, some 5, 10, 20⟩,
  ⟨2, 1, some 2, some 102, some 5, 30, 40⟩]

/-! ## Lemmas, claim theorems, counterexamples and witnesses -/

lemma sum_filter_map_legs (f : Tx → ℕ × ℕ × ℚ) (p : ℕ × ℕ × ℚ → Bool) :
    ∀ L : List Tx,
      (((L.map f).filter p).map (fun l => l.2.2)).sum =
        (L.map (fun t => if p (f t) then (f t).2.2 else 0)).sum := by
  intro L
  induction L with
  | nil => rfl
  | cons t L ih =>
      rw [List.map_cons, List.filter_cons, List.map_cons, List.sum_cons]
      cases h : p (f t)
      · rw [if_neg (by simp [h]), ih]
        simp
      · rw [if_pos (by simp [h]), List.map_cons, List.sum_cons, ih]
        simp

/-- The groupby-sum over the legs table equals the sum of per-transaction
net contributions over the kept rows. -/
lemma netInventory_eq_sum_contrib (flag : Bool) (led : List Tx) (s tr : ℕ) :
    netInventory flag led s tr =
      ((keepInv flag led).map (fun t => contrib t s tr)).sum := by
  unfold netInventory invLegs
  rw [List.filter_append, List.map_append, List.sum_append,
    sum_filter_map_legs, sum_filter_map_legs]
  induction keepInv flag led with
  | nil => simp
  | cons t L ih =>
      simp only [List.map_cons, List.sum_cons]
      rw [show ∀ a b c d : ℚ, (a + b) + (c + d) = (a + c) + (b + d) by intros; ring]
      rw [ih]
      congr 1
      simp only [contrib, decide_eq_true_eq]

/-- A self-trade's two legs cancel inside every (session, trader) cell. -/
lemma contrib_self {t : Tx} (h : t.bid_trader = t.ask_trader) (s tr : ℕ) :
    contrib t s tr = 0 := by
  unfold contrib
  rw [h]
  by_cases hc : t.session = s ∧ t.ask_trader = tr
  · simp [hc]
  · simp [hc]

lemma sum_contrib_selfFilter (s tr : ℕ) : ∀ L : List Tx,
    (((L.filter (fun t => decide (t.bid_trader ≠ t.ask_trader))).filter
        (fun t => t.quantity.isSome)).map (fun t => contrib t s tr)).sum =
      ((L.filter (fun t => t.quantity.isSome)).map (fun t => contrib t s tr)).sum := by
  intro L
  induction L with
  | nil => rfl
  | cons t L ih =>
      rw [List.filter_cons, List.filter_cons]
      by_cases hself : t.bid_trader = t.ask_trader
      · rw [if_neg (by simp [hself])]
        cases hq : t.quantity.isSome
        · rw [if_neg (by simp [hq]), ih]
        · rw [if_pos (by simp [hq]), List.map_cons, List.sum_cons,
            contrib_self hself, ih, zero_add]
      · rw [if_pos (by simp [hself]), List.filter_cons]
        cases hq : t.quantity.isSome
        · rw [if_neg (by simp [hq]), if_neg (by simp [hq]), ih]
        · rw [if_pos (by simp [hq]), if_pos (by simp [hq]),
            List.map_cons, List.map_cons, List.sum_cons, List.sum_cons, ih]

/-- **C3.** For every ledger, the self-trade filter does not change any
trader's net inventory: a self-trade contributes +q and -q to the same
(session, trader) cell, so removing it leaves every groupby-sum unchanged. -/
theorem C3_self_trade_filter_inert (led : List Tx) (s tr : ℕ) :
    netInventory true led s tr = netInventory false led s tr := by
  rw [netInventory_eq_sum_contrib, netInventory_eq_sum_contrib]
  show ((((led.filter (fun t => decide (t.bid_trader ≠ t.ask_trader))).filter
      (fun t => t.quantity.isSome))).map (fun t => contrib t s tr)).sum = _
  rw [sum_contrib_selfFilter]
  rfl

lemma allSome_eq_some {α : Type} :
    ∀ {l : List (Option α)} {ws : List α},
      allSome l = some ws ↔ l = ws.map some := by
  intro l
  induction l with
  | nil =>
      intro ws
      constructor
      · intro h
        cases ws with
        | nil => rfl
        | cons w ws => simp [allSome] at h
      · intro h
        cases ws with
        | nil => rfl
        | cons w ws => simp at h
  | cons x xs ih =>
      intro ws
      cases x with
      | none =>
          simp only [allSome]
          constructor
          · intro h; cases h
          · intro h
            cases ws with
            | nil => simp at h
            | cons w ws => simp at h
      | some a =>
          simp only [allSome, Option.map_eq_some']
          constructor
          · rintro ⟨vs, hvs, rfl⟩
            simp [ih.mp hvs]
          · intro h
            cases ws with
            | nil => simp at h
            | cons w ws =>
                simp only [List.map_cons, List.cons.injEq, Option.some.injEq] at h
                exact ⟨ws, ih.mpr h.2, by simp [h.1]⟩

lemma allSome_isSome_iff {α : Type} (l : List (Option α)) :
    (allSome l).isSome ↔ ∀ x ∈ l, x.isSome := by
  induction l with
  | nil => simp [allSome]
  | cons x xs ih =>
      cases x with
      | none => simp [allSome]
      | some a => simp [allSome, ih]

lemma length_diffFGo {α : Type} [Sub α] :
    ∀ (prev : FloatV α) (xs : List (FloatV α)),
      (diffFGo prev xs).length = xs.length := by
  intro prev xs
  induction xs generalizing prev with
  | nil => rfl
  | cons x xs ih => simp [diffFGo, ih]

lemma length_diffF {α : Type} [Sub α] (col : List (FloatV α)) :
    (diffF col).length = col.length := by
  cases col with
  | nil => rfl
  | cons x xs => simp [diffF, length_diffFGo]

lemma toFin_isSome {α : Type} (c : FloatV α) : (toFin c).isSome = isVal c := by
  cases c <;> rfl

lemma rollingVarF_eq_rollingVar {α : Type} [Field α] (W : ℕ)
    (col : List (FloatV α)) :
    rollingVarF W col = rollingVar W (col.map toFin) := by
  unfold rollingVarF rollingVar
  rw [List.length_map]
  apply List.map_congr_left
  intro i _
  rw [List.map_drop, List.map_take]

lemma sampleVar_eq_spec {α : Type} [Field α] (l : List α) :
    sampleVar l = if 2 ≤ l.length then some (specSampleVar l) else none := by
  unfold sampleVar specSampleVar specMean
  by_cases h : l.length < 2
  · rw [if_pos h, if_neg (by omega)]
  · rw [if_neg h, if_pos (by omega)]

lemma sampleVar_isSome_iff {α : Type} [Field α] (l : List α) :
    (sampleVar l).isSome ↔ 2 ≤ l.length := by
  rw [sampleVar_eq_spec]
  by_cases h : 2 ≤ l.length
  · simp [h]
  · simp [h]

lemma rollingVar_getElem {α : Type} [Field α] (W i : ℕ) (l : List (Option α))
    (hi : i < l.length) :
    (rollingVar W l)[i]? = some (if i + 1 < W then none
      else (allSome ((l.take (i + 1)).drop (i + 1 - W))).bind
        (fun ws => sampleVar ws)) := by
  unfold rollingVar
  rw [List.getElem?_map, List.getElem?_range hi]
  rfl

lemma length_rollingVar {α : Type} [Field α] (W : ℕ) (l : List (Option α)) :
    (rollingVar W l).length = l.length := by
  simp [rollingVar]

lemma window_length {α : Type} (l : List (Option α)) (W i : ℕ)
    (hi : i < l.length) (hW : W ≤ i + 1) :
    ((l.take (i + 1)).drop (i + 1 - W)).length = W := by
  rw [List.length_drop, List.length_take]
  omega

lemma mem_selfFilter_sub {flag : Bool} {led : List Tx} {t : Tx}
    (h : t ∈ selfFilter flag led) : t ∈ led := by
  unfold selfFilter at h
  cases flag with
  | false => exact h
  | true => exact List.mem_of_mem_filter h

lemma keep04_eq_keep03 (flag : Bool) (led : List Tx)
    (h : ∀ t ∈ led, t.price.isSome → t.ts.isSome → t.quantity.isSome) :
    keep04 flag led = keep03 flag led := by
  unfold keep04 keep03
  apply List.filter_congr
  intro t ht
  have hled := mem_selfFilter_sub ht
  rcases hp : t.price.isSome with _ | _
  · simp [hp]
  · rcases hts : t.ts.isSome with _ | _
    · simp [hp, hts]
    · simp [hp, hts, h t hled hp hts]

/-- **C1 (amended).** Whenever the two scripts drop the same rows — in
particular whenever every transaction with a parsable price and timestamp
also has a parsable quantity — the price_change the feedback script attaches
to a transaction is exactly the session-ordered price difference of the
volatility script's series, for every transaction id. -/
theorem C1_price_change_shared (flag : Bool) (led : List Tx) (s id : ℕ)
    (h : ∀ t ∈ led, t.price.isSome → t.ts.isSome → t.quantity.isSome) :
    fbPC flag led s id = volPC flag led s id := by
  unfold fbPC volPC rows04 rows03
  rw [keep04_eq_keep03 flag led h]

/-- **C1 counterexample.** Transaction 3 of ledC1 appears in the volatility
output (it is among the kept, ordered rows) and in the feedback output (its
buyer event exists), yet the volatility-side session-ordered price
difference is 101 - 102 = -1 while the feedback script computes
101 - 100 = 1, because the unparsable-quantity middle row was dropped only
by the feedback script.  The claim as stated is therefore false. -/
theorem C1_counterexample :
    volPC false ledC1 1 3 = some (-1) ∧ fbPC false ledC1 1 3 = some 1 ∧
    c1c ∈ rows03 false ledC1 1 ∧ evOf true c1c 1 ∈ allEvents false ledC1 := by
  refine ⟨?_, ?_, ?_, ?_⟩
  · norm_num [volPC, pcLookup, withPC, withPCGo, rows03, keep03, selfFilter,
      sortTs, List.insertionSort, List.orderedInsert, pv, tsv, ledC1,
      c1a, c1b, c1c, List.findSome?]
  · norm_num [fbPC, pcLookup, withPC, withPCGo, rows04, keep04, selfFilter,
      sortTs, List.insertionSort, List.orderedInsert, pv, tsv, ledC1,
      c1a, c1b, c1c, List.findSome?]
  · norm_num [rows03, keep03, selfFilter, sortTs, List.insertionSort,
      List.orderedInsert, tsv, ledC1, c1a, c1b, c1c]
  · norm_num [allEvents, sessionKeys, sessionEvents, buyerEvents,
      sellerEvents, withPC, withPCGo, rows04, keep04, selfFilter, sortTs,
      List.insertionSort, List.orderedInsert, pv, tsv, qv, ledC1,
      c1a, c1b, c1c, evOf, fbInd]

theorem C1_witness : fbPC false ledC1w 1 2 = volPC false ledC1w 1 2 :=
  C1_price_change_shared false ledC1w 1 2 (by decide)

lemma rollingVar_all_none {α : Type} [Field α] (W : ℕ) (l : List (Option α))
    (h : W ≤ 1 ∨ l.length < W) :
    ∀ i < l.length, (rollingVar W l)[i]? = some none := by
  intro i hi
  rw [rollingVar_getElem W i l hi]
  rcases h with h | h
  · have hW : ¬ i + 1 < W := by omega
    rw [if_neg hW]
    cases hall : allSome ((l.take (i + 1)).drop (i + 1 - W)) with
    | none => rfl
    | some ws =>
        have hlen : ws.length < 2 := by
          have hw := allSome_eq_some.mp hall
          have : ((l.take (i + 1)).drop (i + 1 - W)).length = W :=
            window_length l W i hi (by omega)
          rw [hw, List.length_map] at this
          omega
        simp [sampleVar, hlen]
  · have hW : i + 1 < W := by omega
    rw [if_pos hW]

/-- **C8.** A window size of at most 1 or larger than the session's trade
count makes every cell of the session's rolling volatility series undefined
(with W at most 1 the full window still has at most one observation, which
ddof = 1 turns into NaN, and with W above the session length min_periods is
never reached — in either case regardless of the cell values, NaN and
infinities included); the computation is a total function, so no error is
raised. -/
theorem C8_degenerate_window (flag : Bool) (led : List Tx) (s W : ℕ)
    (h : W ≤ 1 ∨ (lr03F (fun q : ℚ => Real.log (q : ℝ)) flag led s).length < W) :
    ∀ i < (lr03F (fun q : ℚ => Real.log (q : ℝ)) flag led s).length,
      (rolling03F (fun q : ℚ => Real.log (q : ℝ)) W flag led s)[i]? = some none := by
  intro i hi
  unfold rolling03F
  rw [rollingVarF_eq_rollingVar]
  exact rollingVar_all_none W _ (by rw [List.length_map]; exact h) i
    (by rw [List.length_map]; exact hi)

theorem C8_witness :
    (rolling03F (fun q : ℚ => Real.log (q : ℝ)) 1 false ledC8w 1)[0]? = some none :=
  C8_degenerate_window false ledC8w 1 1 (Or.inl (by norm_num)) 0
    (by norm_num [lr03F, diffF, diffFGo, logPriceF, prices03, rows03, keep03,
      selfFilter, sortTs, List.insertionSort, List.orderedInsert, pv, tsv, ledC8w,
      length_diffFGo])

/-- **C4 (amended).** For every session whose return column holds no
infinity (in particular whenever no kept price is zero), the realized
volatility statistics are the Bessel-corrected sample statistics
(divisor n - 1) over all defined log_returns respectively simple_returns of
the session (the groupby std skips NaN cells); with fewer than 2 defined
returns the statistic is undefined — in particular never zero.  When the
column does contain an infinity (a zero price), the skipna std keeps it and
the statistic is undefined as well, rather than the sample statistic of the
remaining defined returns.  Stated at the level of the squared standard
deviation (the sample variance); the standard deviation is its square root,
so definedness and equality transfer verbatim. -/
theorem C4_realized_vol (flag : Bool) (led : List Tx) (s : ℕ) :
    (realizedVarLogretF (fun q : ℚ => Real.log (q : ℝ)) flag led s =
      if (lr03F (fun q : ℚ => Real.log (q : ℝ)) flag led s).any isInf then none
      else if 2 ≤ ((lr03F (fun q : ℚ => Real.log (q : ℝ)) flag led
          s).filterMap toFin).length
      then some (specSampleVar
        ((lr03F (fun q : ℚ => Real.log (q : ℝ)) flag led s).filterMap toFin))
      else none) ∧
    (realizedVarRetF flag led s =
      if (pctChangeF (prices03 flag led s)).any isInf then none
      else if 2 ≤ ((pctChangeF (prices03 flag led s)).filterMap toFin).length
      then some (specSampleVar ((pctChangeF (prices03 flag led
        s)).filterMap toFin))
      else none) ∧
    (((lr03F (fun q : ℚ => Real.log (q : ℝ)) flag led
        s).filterMap toFin).length < 2 →
      realizedVarLogretF (fun q : ℚ => Real.log (q : ℝ)) flag led s = none) ∧
    (((pctChangeF (prices03 flag led s)).filterMap toFin).length < 2 →
      realizedVarRetF flag led s = none) := by
  have main : ∀ (β : Type) (_ : Field β) (col : List (FloatV β)),
      realizedVar col =
        if col.any isInf then none
        else if 2 ≤ (col.filterMap toFin).length
        then some (specSampleVar (col.filterMap toFin)) else none := by
    intro β _ col
    unfold realizedVar
    by_cases h : col.any isInf
    · rw [if_pos h, if_pos h]
    · rw [if_neg h, if_neg h, sampleVar_eq_spec]
  refine ⟨main ℝ inferInstance _, main ℚ inferInstance _, ?_, ?_⟩
  · intro h
    unfold realizedVarLogretF realizedVar
    by_cases hinf : (lr03F (fun q : ℚ => Real.log (q : ℝ)) flag led s).any isInf
    · rw [if_pos hinf]
    · rw [if_neg hinf]
      simp [sampleVar, h]
  · intro h
    unfold realizedVarRetF realizedVar
    by_cases hinf : (pctChangeF (prices03 flag led s)).any isInf
    · rw [if_pos hinf]
    · rw [if_neg hinf]
      simp [sampleVar, h]

/-- **C4 counterexample.** In ledC4's session the zero price makes the
log-return column [NaN, -inf, +inf, finite, finite] and puts a +inf in the
ret column: both realized statistics are NaN in pandas (skipna keeps the
infinities), although two or more defined log_returns respectively
simple_returns exist — so the claim that the statistic always equals the
sample standard deviation of all defined returns, undefined only below two
of them, is false. -/
theorem C4_counterexample :
    realizedVarLogretF (fun q : ℚ => Real.log (q : ℝ)) false ledC4 1 = none ∧
    2 ≤ ((lr03F (fun q : ℚ => Real.log (q : ℝ)) false ledC4
      1).filterMap toFin).length ∧
    realizedVarRetF false ledC4 1 = none ∧
    2 ≤ ((pctChangeF (prices03 false ledC4 1)).filterMap toFin).length := by
  refine ⟨?_, ?_, ?_, ?_⟩
  · norm_num [realizedVarLogretF, realizedVar, lr03F, diffF, diffFGo, subF,
      logPriceF, prices03, rows03, keep03, selfFilter, sortTs,
      List.insertionSort, List.orderedInsert, pv, tsv, ledC4, isInf]
  · norm_num [lr03F, diffF, diffFGo, subF, logPriceF, prices03, rows03,
      keep03, selfFilter, sortTs, List.insertionSort, List.orderedInsert,
      pv, tsv, ledC4, toFin, List.filterMap_cons]
  · norm_num [realizedVarRetF, realizedVar, pctChangeF, pctChangeFGo,
      pctCellF, prices03, rows03, keep03, selfFilter, sortTs,
      List.insertionSort, List.orderedInsert, pv, tsv, ledC4, isInf]
  · norm_num [pctChangeF, pctChangeFGo, pctCellF, prices03, rows03, keep03,
      selfFilter, sortTs, List.insertionSort, List.orderedInsert, pv, tsv,
      ledC4, toFin, List.filterMap_cons]

theorem C4_witness :
    realizedVarLogretF (fun q : ℚ => Real.log (q : ℝ)) false ledC4w 3 = none ∧
    realizedVarRetF false ledC4w 3 = none := by
  have h := C4_realized_vol false ledC4w 3
  refine ⟨h.2.2.1 ?_, h.2.2.2 ?_⟩
  · norm_num [lr03F, diffF, diffFGo, logPriceF, prices03, rows03, keep03,
      selfFilter, sortTs, List.insertionSort, List.orderedInsert, pv, tsv,
      ledC4w, toFin, List.filterMap_cons]
  · norm_num [pctChangeF, pctChangeFGo, prices03, rows03, keep03, selfFilter,
      sortTs, List.insertionSort, List.orderedInsert, pv, tsv, ledC4w, toFin,
      List.filterMap_cons]

lemma window_getElem {α : Type} (l : List (Option α)) (W i m : ℕ)
    (hW : W ≤ i + 1) (hm : m < W) :
    ((l.take (i + 1)).drop (i + 1 - W))[m]? = l[i + 1 - W + m]? := by
  rw [List.getElem?_drop, List.getElem?_take_of_lt (by omega)]

lemma window_isSome_iff {α : Type} (l : List (Option α)) (W i : ℕ)
    (hi : i < l.length) (hW : W ≤ i + 1) :
    (∀ x ∈ (l.take (i + 1)).drop (i + 1 - W), x.isSome) ↔
      ∀ j, i + 1 - W ≤ j → j ≤ i → ((l[j]?).getD none).isSome := by
  have hwl : ((l.take (i + 1)).drop (i + 1 - W)).length = W :=
    window_length l W i hi hW
  constructor
  · intro hmem j hj1 hj2
    have hm : j - (i + 1 - W) < W := by omega
    have hw := window_getElem l W i (j - (i + 1 - W)) hW hm
    rw [show i + 1 - W + (j - (i + 1 - W)) = j by omega] at hw
    have hlt : j - (i + 1 - W) < ((l.take (i + 1)).drop (i + 1 - W)).length := by
      omega
    have hsome : ((((l.take (i + 1)).drop (i + 1 - W))[j - (i + 1 - W)]?)).isSome := by
      rw [List.getElem?_eq_getElem hlt]
      rfl
    obtain ⟨x, hx⟩ := Option.isSome_iff_exists.mp hsome
    rw [hx] at hw
    have : x ∈ (l.take (i + 1)).drop (i + 1 - W) := List.getElem?_mem hx
    rw [← hw]
    simpa using hmem x this
  · intro hj x hx
    obtain ⟨m, hm⟩ := List.getElem?_of_mem hx
    have hmW : m < W := by
      by_contra hge
      rw [List.getElem?_eq_none (by omega)] at hm
      cases hm
    have hw := window_getElem l W i m hW hmW
    rw [hm] at hw
    have := hj (i + 1 - W + m) (by omega) (by omega)
    rw [← hw] at this
    simpa using this

lemma lastWDefined_eq_window {α : Type} (l : List (Option α)) (W i : ℕ)
    {ws : List α} (hi : i < l.length) (hW : W ≤ i + 1)
    (hall : allSome ((l.take (i + 1)).drop (i + 1 - W)) = some ws) :
    lastWDefined W l i = ws ∧ ws.length = W := by
  have hwl : ((l.take (i + 1)).drop (i + 1 - W)).length = W :=
    window_length l W i hi hW
  have hw := allSome_eq_some.mp hall
  have hws : ws.length = W := by
    rw [hw, List.length_map] at hwl
    exact hwl
  refine ⟨?_, hws⟩
  unfold lastWDefined
  have hsplit : l.take (i + 1) =
      (l.take (i + 1)).take (i + 1 - W) ++ (l.take (i + 1)).drop (i + 1 - W) :=
    (List.take_append_drop _ _).symm
  rw [hsplit, hw, List.filterMap_append, List.reverse_append]
  have hws' : (List.filterMap id (ws.map some)).reverse = ws.reverse := by
    rw [List.filterMap_map]
    simp
  rw [hws', List.take_left' (by simp [hws]), List.reverse_reverse]

lemma rollingVar_spec {α : Type} [Field α] (l : List (Option α)) (W i : ℕ)
    (hi : i < l.length) :
    (∃ v, (rollingVar W l)[i]? = some v ∧
      (v.isSome ↔ 2 ≤ W ∧ W ≤ i + 1 ∧
        ∀ j, i + 1 - W ≤ j → j ≤ i → ((l[j]?).getD none).isSome)) ∧
    ∀ r, (rollingVar W l)[i]? = some (some r) →
      (lastWDefined W l i).length = W ∧ r = specSampleVar (lastWDefined W l i) := by
  constructor
  · refine ⟨_, rollingVar_getElem W i l hi, ?_⟩
    by_cases hlt : i + 1 < W
    · rw [if_pos hlt]
      simp only [Option.isSome_none, Bool.false_eq_true, false_iff]
      rintro ⟨-, hle, -⟩
      omega
    · rw [if_neg hlt]
      cases hall : allSome ((l.take (i + 1)).drop (i + 1 - W)) with
      | none =>
          simp only [Option.none_bind, Option.isSome_none, Bool.false_eq_true,
            false_iff]
          rintro ⟨-, hle, hpt⟩
          have : (allSome ((l.take (i + 1)).drop (i + 1 - W))).isSome := by
            rw [allSome_isSome_iff]
            exact (window_isSome_iff l W i hi hle).mpr hpt
          rw [hall] at this
          cases this
      | some ws =>
          have hle : W ≤ i + 1 := by omega
          have hws : ws.length = W :=
            (lastWDefined_eq_window l W i hi hle hall).2
          simp only [Option.some_bind, sampleVar_isSome_iff, hws]
          constructor
          · intro h2
            refine ⟨h2, hle, (window_isSome_iff l W i hi hle).mp ?_⟩
            rw [← allSome_isSome_iff, hall]
            rfl
          · rintro ⟨h2, -, -⟩
            exact h2
  · intro r hr
    rw [rollingVar_getElem W i l hi] at hr
    by_cases hlt : i + 1 < W
    · rw [if_pos hlt] at hr
      cases hr
    · rw [if_neg hlt] at hr
      have hle : W ≤ i + 1 := by omega
      injection hr with hr
      cases hall : allSome ((l.take (i + 1)).drop (i + 1 - W)) with
      | none => rw [hall] at hr; simp at hr
      | some ws =>
          rw [hall] at hr
          simp only [Option.some_bind] at hr
          obtain ⟨hlw, hws⟩ := lastWDefined_eq_window l W i hi hle hall
          rw [sampleVar_eq_spec] at hr
          by_cases h2 : 2 ≤ ws.length
          · rw [if_pos h2] at hr
            injection hr with hr
            exact ⟨by rw [hlw, hws], by rw [hlw, ← hr]⟩
          · rw [if_neg h2] at hr
            cases hr

lemma logPriceF_not_inf {α : Type} (ln : ℚ → α) {p : ℚ} (hp : p ≠ 0) :
    isInf (logPriceF ln p) = false := by
  unfold logPriceF
  by_cases h1 : 0 < p
  · rw [if_pos h1]
    rfl
  · rw [if_neg h1, if_neg hp]
    rfl

lemma subF_not_inf {α : Type} [Sub α] {a b : FloatV α}
    (ha : isInf a = false) (hb : isInf b = false) :
    isInf (subF a b) = false := by
  cases a <;> cases b <;> simp_all [subF, isInf]

lemma diffFGo_not_inf {α : Type} [Sub α] :
    ∀ (prev : FloatV α) (xs : List (FloatV α)), isInf prev = false →
      (∀ x ∈ xs, isInf x = false) → ∀ c ∈ diffFGo prev xs, isInf c = false := by
  intro prev xs
  induction xs generalizing prev with
  | nil => intro _ _ c hc; simp [diffFGo] at hc
  | cons x xs ih =>
      intro hprev hxs c hc
      simp only [diffFGo, List.mem_cons] at hc
      rcases hc with rfl | hc
      · exact subF_not_inf (hxs x (by simp)) hprev
      · exact ih x (hxs x (by simp))
          (fun y hy => hxs y (List.mem_cons_of_mem _ hy)) c hc

lemma diffF_not_inf {α : Type} [Sub α] {col : List (FloatV α)}
    (h : ∀ x ∈ col, isInf x = false) : ∀ c ∈ diffF col, isInf c = false := by
  cases col with
  | nil => intro c hc; simp [diffF] at hc
  | cons x xs =>
      intro c hc
      simp only [diffF, List.mem_cons] at hc
      rcases hc with rfl | hc
      · rfl
      · exact diffFGo_not_inf x xs (h x (by simp))
          (fun y hy => h y (List.mem_cons_of_mem _ hy)) c hc

lemma finite_cell_iff {α : Type} {col : List (FloatV α)} {j : ℕ}
    (hj : j < col.length) (hinf : ∀ c ∈ col, isInf c = false) :
    (((col.map toFin)[j]?).getD none).isSome =
      !(isNaN ((col[j]?).getD FloatV.nan)) := by
  rw [List.getElem?_map, List.getElem?_eq_getElem hj]
  have hI := hinf _ (List.getElem_mem hj)
  cases hc : col[j] <;> rw [hc] at hI <;> simp_all [toFin, isNaN, isInf]

/-- **C2 (amended).** For every session all of whose kept prices are nonzero
(so no infinite log_return arises and pandas' window rule is version
independent), and every window size W: the rolling volatility at position i
is defined iff W is at least 2 and position i has a full positional window
whose W log_returns (positions i-W+1 .. i) are all non-NaN — a NaN
log_return inside the window (for example from a negative price) makes the
cell undefined even when W defined log_returns exist earlier in the
session.  When it is defined it equals the Bessel-corrected sample
statistic of the most recent W defined log_return values ending at i (which
are then exactly the window's values).  Stated at the
squared-standard-deviation level. -/
theorem C2_rolling_vol (flag : Bool) (led : List Tx) (s W i : ℕ)
    (hz : ∀ p ∈ prices03 flag led s, p ≠ 0)
    (hi : i < (lr03F (fun q : ℚ => Real.log (q : ℝ)) flag led s).length) :
    (∃ v, (rolling03F (fun q : ℚ => Real.log (q : ℝ)) W flag led s)[i]? =
        some v ∧
      (v.isSome ↔ 2 ≤ W ∧ W ≤ i + 1 ∧
        ∀ j, i + 1 - W ≤ j → j ≤ i →
          isNaN (((lr03F (fun q : ℚ => Real.log (q : ℝ)) flag led
            s)[j]?).getD FloatV.nan) = false)) ∧
    ∀ r, (rolling03F (fun q : ℚ => Real.log (q : ℝ)) W flag led s)[i]? =
        some (some r) →
      (lastWDefined W ((lr03F (fun q : ℚ => Real.log (q : ℝ)) flag led
          s).map toFin) i).length = W ∧
      r = specSampleVar (lastWDefined W
        ((lr03F (fun q : ℚ => Real.log (q : ℝ)) flag led s).map toFin) i) := by
  have hinf : ∀ c ∈ lr03F (fun q : ℚ => Real.log (q : ℝ)) flag led s,
      isInf c = false := by
    apply diffF_not_inf
    intro x hx
    rw [List.mem_map] at hx
    obtain ⟨p, hp, rfl⟩ := hx
    exact logPriceF_not_inf _ (hz p hp)
  have hi' : i < ((lr03F (fun q : ℚ => Real.log (q : ℝ)) flag led
      s).map toFin).length := by
    rw [List.length_map]
    exact hi
  have spec := rollingVar_spec
    ((lr03F (fun q : ℚ => Real.log (q : ℝ)) flag led s).map toFin) W i hi'
  have heq : rolling03F (fun q : ℚ => Real.log (q : ℝ)) W flag led s =
      rollingVar W ((lr03F (fun q : ℚ => Real.log (q : ℝ)) flag led
        s).map toFin) :=
    rollingVarF_eq_rollingVar W _
  constructor
  · obtain ⟨v, hv, hiff⟩ := spec.1
    refine ⟨v, by rw [heq]; exact hv, hiff.trans ?_⟩
    have hpt : ∀ j, j ≤ i →
        ((((lr03F (fun q : ℚ => Real.log (q : ℝ)) flag led
          s).map toFin)[j]?).getD none).isSome =
          !(isNaN (((lr03F (fun q : ℚ => Real.log (q : ℝ)) flag led
            s)[j]?).getD FloatV.nan)) := by
      intro j hj
      exact finite_cell_iff (lt_of_le_of_lt hj hi) hinf
    constructor
    · rintro ⟨h2, hle, hcells⟩
      refine ⟨h2, hle, fun j hj1 hj2 => ?_⟩
      have := hcells j hj1 hj2
      rw [hpt j hj2] at this
      simpa using this
    · rintro ⟨h2, hle, hcells⟩
      refine ⟨h2, hle, fun j hj1 hj2 => ?_⟩
      rw [hpt j hj2]
      simpa using hcells j hj1 hj2
  · intro r hr
    exact spec.2 r (by rw [← heq]; exact hr)

/-- **C2 counterexample.** With window W = 2, position 4 of ledC2's session
has two defined log_returns at or before it (positions 1 and 4), yet the
rolling volatility cell at position 4 is undefined, because the positional
window (positions 3, 4) contains the NaN at position 3 (ledC2 has no zero
price, so this is the version-independent regime of pandas).  The claimed
"defined iff at least W defined log_returns exist at or before i" is
therefore false. -/
theorem C2_counterexample :
    (rolling03F (fun q : ℚ => Real.log (q : ℝ)) 2 false ledC2 1)[4]? =
        some none ∧
    2 ≤ (((lr03F (fun q : ℚ => Real.log (q : ℝ)) false ledC2 1).take
      (4 + 1)).filterMap toFin).length := by
  constructor
  · norm_num [rolling03F, rollingVarF, lr03F, diffF, diffFGo, subF, logPriceF,
      prices03, rows03, keep03, selfFilter, sortTs, List.insertionSort,
      List.orderedInsert, pv, tsv, ledC2, allSome, toFin, List.range_succ]
  · norm_num [lr03F, diffF, diffFGo, subF, logPriceF, prices03, rows03,
      keep03, selfFilter, sortTs, List.insertionSort, List.orderedInsert,
      pv, tsv, ledC2, toFin, List.filterMap_cons]

theorem C2_witness :
    (∃ v, (rolling03F (fun q : ℚ => Real.log (q : ℝ)) 2 false ledC2w 1)[2]? =
        some v ∧
      (v.isSome ↔ 2 ≤ 2 ∧ 2 ≤ 2 + 1 ∧
        ∀ j, 2 + 1 - 2 ≤ j → j ≤ 2 →
          isNaN (((lr03F (fun q : ℚ => Real.log (q : ℝ)) false ledC2w
            1)[j]?).getD FloatV.nan) = false)) ∧
    ∀ r, (rolling03F (fun q : ℚ => Real.log (q : ℝ)) 2 false ledC2w 1)[2]? =
        some (some r) →
      (lastWDefined 2 ((lr03F (fun q : ℚ => Real.log (q : ℝ)) false ledC2w
          1).map toFin) 2).length = 2 ∧
      r = specSampleVar (lastWDefined 2
        ((lr03F (fun q : ℚ => Real.log (q : ℝ)) false ledC2w 1).map toFin) 2) :=
  C2_rolling_vol false ledC2w 1 2 2
    (by norm_num [prices03, rows03, keep03, selfFilter, sortTs,
      List.insertionSort, List.orderedInsert, pv, tsv, ledC2w,
      List.forall_mem_cons])
    (by norm_num [lr03F, diffF, diffFGo, logPriceF, prices03, rows03,
      keep03, selfFilter, sortTs, List.insertionSort, List.orderedInsert,
      pv, tsv, ledC2w, length_diffFGo])

lemma subF_nan_left {α : Type} [Sub α] (x : FloatV α) :
    subF FloatV.nan x = FloatV.nan := by
  cases x <;> rfl

lemma subF_nan_right {α : Type} [Sub α] (x : FloatV α) :
    subF x FloatV.nan = FloatV.nan := by
  cases x <;> rfl

lemma diffFGo_getElem_nan {α : Type} [Sub α] :
    ∀ (prev : FloatV α) (xs : List (FloatV α)) (i : ℕ),
      xs[i]? = some FloatV.nan →
        (diffFGo prev xs)[i]? = some FloatV.nan := by
  intro prev xs
  induction xs generalizing prev with
  | nil => intro i h; simp at h
  | cons x xs ih =>
      intro i h
      cases i with
      | zero =>
          simp only [List.getElem?_cons_zero, Option.some.injEq] at h
          subst h
          simp [diffFGo, subF_nan_left]
      | succ i =>
          simp only [List.getElem?_cons_succ] at h
          simpa [diffFGo] using ih x i h

lemma diffFGo_getElem_succ_nan {α : Type} [Sub α] :
    ∀ (prev : FloatV α) (xs : List (FloatV α)) (i : ℕ),
      xs[i]? = some FloatV.nan → i + 1 < xs.length →
        (diffFGo prev xs)[i + 1]? = some FloatV.nan := by
  intro prev xs
  induction xs generalizing prev with
  | nil => intro i h _; simp at h
  | cons x xs ih =>
      intro i h hlen
      cases i with
      | zero =>
          simp only [List.getElem?_cons_zero, Option.some.injEq] at h
          subst h
          cases xs with
          | nil => simp at hlen
          | cons y r => simp [diffFGo, subF_nan_right]
      | succ i =>
          simp only [List.getElem?_cons_succ] at h
          simp only [List.length_cons] at hlen
          simpa [diffFGo] using ih x i h (by omega)

lemma diffF_getElem_nan {α : Type} [Sub α] (col : List (FloatV α)) (i : ℕ)
    (h : col[i]? = some FloatV.nan) :
    (diffF col)[i]? = some FloatV.nan ∧
      (i + 1 < col.length → (diffF col)[i + 1]? = some FloatV.nan) := by
  cases col with
  | nil => simp at h
  | cons x xs =>
      constructor
      · cases i with
        | zero => simp [diffF]
        | succ i =>
            simp only [List.getElem?_cons_succ] at h
            simpa [diffF] using diffFGo_getElem_nan x xs i h
      · intro hlen
        cases i with
        | zero =>
            simp only [List.getElem?_cons_zero, Option.some.injEq] at h
            subst h
            simp only [List.length_cons] at hlen
            cases xs with
            | nil => simp at hlen
            | cons y r => simp [diffF, diffFGo, subF_nan_right]
        | succ i =>
            simp only [List.getElem?_cons_succ] at h
            simp only [List.length_cons] at hlen
            simpa [diffF] using diffFGo_getElem_succ_nan x xs i h (by omega)

/-- **C7 (amended).** log_price is the finite value ln(price) exactly for a
positive price; np.log yields NaN for a negative price and -inf for a zero
price.  Rows with unparsable price or timestamp are dropped before
differencing, and a row with parsable price and timestamp is kept
regardless of the price's sign.  A NaN log_price makes the log_return at
that position and the following one NaN, and an infinite cell makes the
skipna realized statistic undefined — so no logarithm of a nonpositive
price ever enters a defined statistic — but the row itself is not excluded:
its simple_return can be defined and contribute to realized_vol_ret (see
the counterexample). -/
theorem C7_nonpositive_price (flag : Bool) (led : List Tx) :
    (∀ p : ℚ, logPriceF (fun q : ℚ => Real.log (q : ℝ)) p =
        FloatV.val (Real.log (p : ℝ)) ↔ 0 < p) ∧
    (∀ p : ℚ, p < 0 →
      logPriceF (fun q : ℚ => Real.log (q : ℝ)) p = FloatV.nan) ∧
    (logPriceF (fun q : ℚ => Real.log (q : ℝ)) 0 = FloatV.ninf) ∧
    (∀ t ∈ keep03 flag led, t.price.isSome ∧ t.ts.isSome) ∧
    (∀ t ∈ led, t.price.isSome → t.ts.isSome → t ∈ keep03 false led) ∧
    (∀ (col : List (FloatV ℝ)) (i : ℕ), col[i]? = some FloatV.nan →
      (diffF col)[i]? = some FloatV.nan ∧
        (i + 1 < col.length → (diffF col)[i + 1]? = some FloatV.nan)) ∧
    (∀ col : List (FloatV ℝ), col.any isInf → realizedVar col = none) := by
  refine ⟨?_, ?_, ?_, ?_, ?_, fun col i h => diffF_getElem_nan col i h, ?_⟩
  · intro p
    unfold logPriceF
    by_cases hp : 0 < p
    · simp [hp]
    · rw [if_neg hp]
      by_cases hz : p = 0
      · simp [hz, hp]
      · simp [hz, hp]
  · intro p hp
    unfold logPriceF
    rw [if_neg (by linarith), if_neg (by linarith)]
  · unfold logPriceF
    norm_num
  · intro t ht
    have := List.of_mem_filter ht
    simpa using this
  · intro t ht hp hts
    unfold keep03 selfFilter
    exact List.mem_filter.mpr ⟨ht, by simp [hp, hts]⟩
  · intro col h
    unfold realizedVar
    rw [if_pos h]

/-- **C7 counterexample.** The negative-price row 2 of ledC7 is kept by the
volatility script, its simple_returns -2 and 0 are defined, and
realized_vol_ret is defined (squared value 2) — computed from returns of a
nonpositive-price row.  The claim that a row with price <= 0 is excluded
from all return-based statistics is therefore false. -/
theorem C7_counterexample :
    (⟨2, 1, some 2, some (-1), some 1, 1, 2⟩ : Tx) ∈ rows03 false ledC7 1 ∧
    pctChangeF (prices03 false ledC7 1) =
      [FloatV.nan, FloatV.val (-2), FloatV.val 0] ∧
    realizedVarRetF false ledC7 1 = some 2 := by
  refine ⟨?_, ?_, ?_⟩
  · norm_num [rows03, keep03, selfFilter, sortTs, List.insertionSort,
      List.orderedInsert, tsv, ledC7]
  · norm_num [pctChangeF, pctChangeFGo, pctCellF, prices03, rows03, keep03,
      selfFilter, sortTs, List.insertionSort, List.orderedInsert, pv, tsv,
      ledC7]
  · norm_num [realizedVarRetF, realizedVar, sampleVar, pctChangeF,
      pctChangeFGo, pctCellF, prices03, rows03, keep03, selfFilter, sortTs,
      List.insertionSort, List.orderedInsert, pv, tsv, ledC7, isInf, toFin,
      List.filterMap_cons]

theorem C7_witness :
    (logPriceF (fun q : ℚ => Real.log (q : ℝ)) 5 =
        FloatV.val (Real.log ((5 : ℚ) : ℝ)) ↔ 0 < (5 : ℚ)) ∧
    (⟨1, 1, some 1, some 5, some 1, 1, 2⟩ : Tx) ∈ keep03 false ledC7w := by
  have h := C7_nonpositive_price false ledC7w
  exact ⟨h.1 5,
    h.2.2.2.2.1 ⟨1, 1, some 1, some 5, some 1, 1, 2⟩ (by decide) (by decide)
      (by decide)⟩

lemma mem_withPCGo_sub :
    ∀ (prev : Tx) (ts : List Tx) (x : Option ℚ × Tx),
      x ∈ withPCGo prev ts → x.2 ∈ ts := by
  intro prev ts
  induction ts generalizing prev with
  | nil => intro x hx; simp [withPCGo] at hx
  | cons t ts ih =>
      intro x hx
      simp only [withPCGo, List.mem_cons] at hx
      rcases hx with rfl | hx
      · simp
      · exact List.mem_cons_of_mem _ (ih t x hx)

lemma mem_withPC_sub {rows : List Tx} {x : Option ℚ × Tx}
    (hx : x ∈ withPC rows) : x.2 ∈ rows := by
  cases rows with
  | nil => simp [withPC] at hx
  | cons t ts =>
      simp only [withPC, List.mem_cons] at hx
      rcases hx with rfl | hx
      · simp
      · exact List.mem_cons_of_mem _ (mem_withPCGo_sub t ts x hx)

lemma mem_rows04 {flag : Bool} {led : List Tx} {s : ℕ} {t : Tx}
    (ht : t ∈ rows04 flag led s) : t ∈ keep04 flag led ∧ t.session = s := by
  unfold rows04 sortTs at ht
  rw [(List.perm_insertionSort _ _).mem_iff] at ht
  have h1 := List.mem_of_mem_filter ht
  have h2 := List.of_mem_filter ht
  exact ⟨h1, by simpa using h2⟩

lemma mem_sessionEvents {flag : Bool} {led : List Tx} {s : ℕ} {e : Ev}
    (he : e ∈ sessionEvents flag led s) :
    e.fb = fbInd e.pc e.sq ∧ e.session = s := by
  unfold sessionEvents buyerEvents sellerEvents at he
  rw [List.mem_append] at he
  have main : ∀ (side : Bool), e ∈ (withPC (rows04 flag led s)).filterMap
      (fun x => x.1.map (evOf side x.2)) →
      e.fb = fbInd e.pc e.sq ∧ e.session = s := by
    intro side hmem
    rw [List.mem_filterMap] at hmem
    obtain ⟨x, hx, hfx⟩ := hmem
    rw [Option.map_eq_some'] at hfx
    obtain ⟨c, hc, rfl⟩ := hfx
    refine ⟨rfl, ?_⟩
    have := (mem_rows04 (mem_withPC_sub hx)).2
    simpa [evOf] using this
  rcases he with he | he
  · exact main true he
  · exact main false he

lemma mem_allEvents {flag : Bool} {led : List Tx} {e : Ev}
    (he : e ∈ allEvents flag led) : e.fb = fbInd e.pc e.sq := by
  unfold allEvents at he
  rw [List.mem_flatMap] at he
  obtain ⟨s, -, he⟩ := he
  exact (mem_sessionEvents he).1

lemma fbInd_zero_or_one (pc sq : ℚ) : fbInd pc sq = 0 ∨ fbInd pc sq = 1 := by
  unfold fbInd
  by_cases h : (0 < pc ∧ 0 < sq) ∨ (pc < 0 ∧ sq < 0)
  · simp [h]
  · simp [h]

/-- **C6.** For every trade event the script generates, is_feedback is 1
exactly when (price_change > 0 and signed_quantity > 0) or
(price_change < 0 and signed_quantity < 0), and 0 in every other case,
including zero price change and zero signed quantity. -/
theorem C6_classification (flag : Bool) (led : List Tx) (e : Ev)
    (he : e ∈ allEvents flag led) :
    (e.fb = 1 ↔ (0 < e.pc ∧ 0 < e.sq) ∨ (e.pc < 0 ∧ e.sq < 0)) ∧
    (e.fb = 0 ↔ ¬ ((0 < e.pc ∧ 0 < e.sq) ∨ (e.pc < 0 ∧ e.sq < 0))) := by
  rw [mem_allEvents he]
  unfold fbInd
  by_cases h : (0 < e.pc ∧ 0 < e.sq) ∨ (e.pc < 0 ∧ e.sq < 0)
  · rw [if_pos h]
    norm_num [h]
  · rw [if_neg h]
    norm_num [h]

theorem C6_witness :
    ((evOf true ⟨2, 1, some 2, some 102, some 5, 30, 40⟩ 2).fb = 1 ↔
      (0 < (evOf true ⟨2, 1, some 2, some 102, some 5, 30, 40⟩ 2).pc ∧
        0 < (evOf true ⟨2, 1, some 2, some 102, some 5, 30, 40⟩ 2).sq) ∨
      ((evOf true ⟨2, 1, some 2, some 102, some 5, 30, 40⟩ 2).pc < 0 ∧
        (evOf true ⟨2, 1, some 2, some 102, some 5, 30, 40⟩ 2).sq < 0)) ∧
    ((evOf true ⟨2, 1, some 2, some 102, some 5, 30, 40⟩ 2).fb = 0 ↔
      ¬ ((0 < (evOf true ⟨2, 1, some 2, some 102, some 5, 30, 40⟩ 2).pc ∧
          0 < (evOf true ⟨2, 1, some 2, some 102, some 5, 30, 40⟩ 2).sq) ∨
        ((evOf true ⟨2, 1, some 2, some 102, some 5, 30, 40⟩ 2).pc < 0 ∧
          (evOf true ⟨2, 1, some 2, some 102, some 5, 30, 40⟩ 2).sq < 0))) :=
  C6_classification false ledC6w (evOf true ⟨2, 1, some 2, some 102, some 5, 30, 40⟩ 2)
    (by norm_num [allEvents, sessionKeys, sessionEvents, buyerEvents,
      sellerEvents, withPC, withPCGo, rows04, keep04, selfFilter, sortTs,
      List.insertionSort, List.orderedInsert, pv, tsv, qv, ledC6w, evOf, fbInd])

lemma rateOf_eq_specMean (evs : List Ev) :
    rateOf evs = specMean (evs.map Ev.fb) := by
  unfold rateOf specMean
  rw [List.length_map]

lemma sum_zero_one_bounds :
    ∀ L : List ℚ, (∀ x ∈ L, x = 0 ∨ x = 1) →
      0 ≤ L.sum ∧ L.sum ≤ (L.length : ℚ) := by
  intro L
  induction L with
  | nil => intro _; simp
  | cons x L ih =>
      intro h
      have hx := h x (by simp)
      have hL := ih (fun y hy => h y (List.mem_cons_of_mem _ hy))
      rw [List.sum_cons, List.length_cons]
      push_cast
      rcases hx with rfl | rfl <;> constructor <;> linarith [hL.1, hL.2]

lemma rateOf_bounds {evs : List Ev} (hne : evs ≠ [])
    (h : ∀ e ∈ evs, e.fb = 0 ∨ e.fb = 1) :
    0 ≤ rateOf evs ∧ rateOf evs ≤ 1 := by
  have hlen : 0 < (evs.length : ℚ) := by
    have := List.length_pos.mpr hne
    exact_mod_cast this
  have hb := sum_zero_one_bounds (evs.map Ev.fb) (by
    intro x hx
    rw [List.mem_map] at hx
    obtain ⟨e, he, rfl⟩ := hx
    exact h e he)
  rw [List.length_map] at hb
  unfold rateOf
  constructor
  · exact div_nonneg hb.1 (le_of_lt hlen)
  · rw [div_le_one hlen]
    exact hb.2

/-- **C5 (amended).** Every row the two feedback summaries report comes from
a group with at least one event: its count is positive, its feedback_rate is
the arithmetic mean of the group's is_feedback column and lies in [0, 1].
A group with zero events produces no summary row at all (pandas groupby
drops empty groups), rather than a row with n_events = 0; division by zero
never occurs. -/
theorem C5_feedback_rate (flag : Bool) (led : List Tx) :
    (∀ r ∈ sessionSummary flag led,
      sessionEvents flag led r.1 ≠ [] ∧
      r.2.1 = (sessionEvents flag led r.1).length ∧ 0 < r.2.1 ∧
      r.2.2 = specMean ((sessionEvents flag led r.1).map Ev.fb) ∧
      0 ≤ r.2.2 ∧ r.2.2 ≤ 1) ∧
    (∀ r ∈ traderSummary flag led,
      0 < r.2.2.1 ∧ 0 ≤ r.2.2.2 ∧ r.2.2.2 ≤ 1) := by
  constructor
  · intro r hr
    unfold sessionSummary at hr
    rw [List.mem_filterMap] at hr
    obtain ⟨s, hs, hsr⟩ := hr
    by_cases hne : (sessionEvents flag led s).isEmpty
    · rw [if_pos hne] at hsr
      cases hsr
    · rw [if_neg hne] at hsr
      have hne' : sessionEvents flag led s ≠ [] := by
        simpa [List.isEmpty_iff] using hne
      cases hsr
      have hb := rateOf_bounds hne' (fun e he =>
        (mem_sessionEvents he).1 ▸ fbInd_zero_or_one e.pc e.sq)
      refine ⟨hne', rfl, List.length_pos.mpr hne', rateOf_eq_specMean _, hb.1, hb.2⟩
  · intro r hr
    unfold traderSummary at hr
    rw [List.mem_map] at hr
    obtain ⟨k, hk, hkr⟩ := hr
    unfold traderKeys at hk
    rw [List.mem_dedup, List.mem_map] at hk
    obtain ⟨e, he, hek⟩ := hk
    cases hkr
    have hmem : e ∈ (allEvents flag led).filter
        (fun e => e.session = k.1 ∧ e.trader = k.2) := by
      rw [List.mem_filter]
      exact ⟨he, by simp [← hek]⟩
    have hne : (allEvents flag led).filter
        (fun e => e.session = k.1 ∧ e.trader = k.2) ≠ [] :=
      List.ne_nil_of_mem hmem
    have hb := rateOf_bounds hne (fun x hx =>
      (mem_allEvents (List.mem_of_mem_filter hx)) ▸
        fbInd_zero_or_one x.pc x.sq)
    exact ⟨List.length_pos.mpr hne, hb.1, hb.2⟩

/-- **C5 counterexample.** Session 7 of ledC5 is a single-trade session, so
its group of events is empty; the claim says it is reported with
n_events = 0, but both summaries are empty — the zero-event group is not
reported at all. -/
theorem C5_counterexample :
    7 ∈ sessionKeys false ledC5 ∧ sessionEvents false ledC5 7 = [] ∧
    sessionSummary false ledC5 = [] ∧ traderSummary false ledC5 = [] := by
  refine ⟨?_, ?_, ?_, ?_⟩ <;>
    norm_num [sessionKeys, sessionEvents, sessionSummary, traderSummary,
      traderKeys, allEvents, buyerEvents, sellerEvents, withPC, withPCGo,
      rows04, keep04, selfFilter, sortTs, List.insertionSort,
      List.orderedInsert, pv, tsv, qv, ledC5, rateOf, List.dedup]

theorem C5_witness :
    sessionEvents false ledC5w (1, 2, 1/2).1 ≠ [] ∧
    (1, 2, 1/2).2.1 = (sessionEvents false ledC5w (1, 2, 1/2).1).length ∧
    0 < (1, 2, (1:ℚ)/2).2.1 ∧
    (1, 2, (1:ℚ)/2).2.2 =
      specMean ((sessionEvents false ledC5w (1, 2, 1/2).1).map Ev.fb) ∧
    0 ≤ (1, 2, (1:ℚ)/2).2.2 ∧ (1, 2, (1:ℚ)/2).2.2 ≤ 1 :=
  (C5_feedback_rate false ledC5w).1 (1, 2, 1/2)
    (by norm_num [sessionSummary, sessionKeys, sessionEvents, buyerEvents,
      sellerEvents, withPC, withPCGo, rows04, keep04, selfFilter, sortTs,
      List.insertionSort, List.orderedInsert, pv, tsv, qv, ledC5w, evOf,
      fbInd, rateOf, List.dedup, List.filterMap_cons, Option.map_some,
      Option.map_none])

lemma keepInv_map_ts (flag : Bool) (led : List Tx) (f : Tx → Option ℚ) :
    keepInv flag (led.map (fun t => { t with ts := f t })) =
      (keepInv flag led).map (fun t => { t with ts := f t }) := by
  unfold keepInv selfFilter
  cases flag with
  | false =>
      simp only [Bool.false_eq_true, if_neg, if_false]
      rw [List.filter_map]
      rfl
  | true =>
      simp only [if_pos]
      rw [List.filter_map, List.filter_map]
      rfl

/-- **C9.** A transaction with an unparsable timestamp is excluded from the
row sets of both time-ordered scripts (volatility and feedback) but, with a
parsable quantity, still contributes its buyer and seller legs to the
inventory legs table (default run, no self-trade filter); and net_inventory
is invariant under arbitrary rewriting of every timestamp cell, because the
inventory script never reads the timestamp. -/
theorem C9_timestamp_asymmetry :
    (∀ (flag : Bool) (led : List Tx) (t : Tx), t ∈ led → t.ts = none →
      t ∉ keep03 flag led ∧ t ∉ keep04 flag led) ∧
    (∀ (led : List Tx) (t : Tx) (q : ℚ), t ∈ led → t.quantity = some q →
      (t.session, t.bid_trader, q) ∈ invLegs false led ∧
      (t.session, t.ask_trader, -q) ∈ invLegs false led) ∧
    (∀ (flag : Bool) (led : List Tx) (f : Tx → Option ℚ) (s tr : ℕ),
      netInventory flag (led.map (fun t => { t with ts := f t })) s tr =
        netInventory flag led s tr) := by
  refine ⟨?_, ?_, ?_⟩
  · intro flag led t _ hts
    constructor
    · intro hmem
      unfold keep03 at hmem
      have := List.of_mem_filter hmem
      simp [hts] at this
    · intro hmem
      unfold keep04 at hmem
      have := List.of_mem_filter hmem
      simp [hts] at this
  · intro led t q ht hq
    have htk : t ∈ keepInv false led := by
      unfold keepInv selfFilter
      exact List.mem_filter.mpr ⟨ht, by simp [hq]⟩
    have hqv : qv t = q := by simp [qv, hq]
    constructor
    · exact List.mem_append_left _
        (List.mem_map.mpr ⟨t, htk, by rw [hqv]⟩)
    · exact List.mem_append_right _
        (List.mem_map.mpr ⟨t, htk, by rw [hqv]⟩)
  · intro flag led f s tr
    unfold netInventory invLegs
    rw [keepInv_map_ts, List.map_map, List.map_map]
    rfl

theorem C9_witness :
    ((⟨1, 1, none, some 100, some 5, 10, 20⟩ : Tx) ∉ keep03 false ledC9w ∧
      (⟨1, 1, none, some 100, some 5, 10, 20⟩ : Tx) ∉ keep04 false ledC9w) ∧
    ((1, 10, (5:ℚ)) ∈ invLegs false ledC9w ∧
      (1, 20, (-5:ℚ)) ∈ invLegs false ledC9w) :=
  ⟨C9_timestamp_asymmetry.1 false ledC9w ⟨1, 1, none, some 100, some 5, 10, 20⟩
      (by decide) rfl,
    C9_timestamp_asymmetry.2.1 ledC9w ⟨1, 1, none, some 100, some 5, 10, 20⟩ 5
      (by decide) rfl⟩

lemma fbInd_pair {c q : ℚ} (hc : c ≠ 0) (hq : 0 < q) :
    fbInd c q + fbInd c (-q) = 1 ∧ (fbInd c q = 1 ↔ 0 < c) := by
  rcases lt_or_gt_of_ne hc with hneg | hpos
  · have h1 : fbInd c q = 0 := by
      unfold fbInd
      rw [if_neg]
      rintro (⟨hcpos, -⟩ | ⟨-, hqneg⟩)
      · exact absurd hcpos (not_lt.mpr hneg.le)
      · exact absurd hq (not_lt.mpr hqneg.le)
    have h2 : fbInd c (-q) = 1 := by
      unfold fbInd
      rw [if_pos (Or.inr ⟨hneg, by linarith⟩)]
    rw [h1, h2]
    norm_num
    exact hneg.le
  · have h1 : fbInd c q = 1 := by
      unfold fbInd
      rw [if_pos (Or.inl ⟨hpos, hq⟩)]
    have h2 : fbInd c (-q) = 0 := by
      unfold fbInd
      rw [if_neg]
      rintro (⟨-, hqpos⟩ | ⟨hcneg, -⟩)
      · linarith
      · exact absurd hpos (not_lt.mpr hcneg.le)
    rw [h1, h2]
    norm_num
    exact hpos

lemma length_side_events (side : Bool) :
    ∀ Z : List (Option ℚ × Tx),
      (Z.filterMap (fun x => x.1.map (evOf side x.2))).length =
        (Z.filterMap (fun x => x.1)).length := by
  intro Z
  induction Z with
  | nil => rfl
  | cons x Z ih =>
      rcases x with ⟨c, t⟩
      cases c with
      | none =>
          rw [List.filterMap_cons_none (by rfl), List.filterMap_cons_none (by rfl)]
          exact ih
      | some c =>
          rw [List.filterMap_cons_some (by rfl),
            List.filterMap_cons_some (f := fun x : Option ℚ × Tx => x.1)
              (by rfl)]
          simp only [List.length_cons]
          rw [ih]

lemma sum_fb_events :
    ∀ Z : List (Option ℚ × Tx),
      (∀ c t, (some c, t) ∈ Z → c ≠ 0 ∧ 0 < qv t) →
      ((Z.filterMap (fun x => x.1.map (evOf true x.2))).map Ev.fb).sum +
        ((Z.filterMap (fun x => x.1.map (evOf false x.2))).map Ev.fb).sum =
        ((Z.filterMap (fun x => x.1)).length : ℚ) := by
  intro Z
  induction Z with
  | nil => intro _; simp
  | cons x Z ih =>
      intro h
      have hZ := ih (fun c t hct => h c t (List.mem_cons_of_mem _ hct))
      rcases x with ⟨c, t⟩
      cases c with
      | none =>
          rw [List.filterMap_cons_none (by rfl),
            List.filterMap_cons_none (by rfl),
            List.filterMap_cons_none (f := fun x : Option ℚ × Tx => x.1)
              (by rfl)]
          exact hZ
      | some c =>
          have hct := h c t (by simp)
          have hpair := fbInd_pair hct.1 hct.2
          rw [List.filterMap_cons_some (by rfl),
            List.filterMap_cons_some (by rfl),
            List.filterMap_cons_some (f := fun x : Option ℚ × Tx => x.1)
              (by rfl)]
          simp only [List.map_cons, List.sum_cons, List.length_cons]
          push_cast
          have hfb : (evOf true t c).fb + (evOf false t c).fb = 1 := by
            simpa [evOf] using hpair.1
          linarith [hZ, hfb]

lemma countSome_withPCGo :
    ∀ (prev : Tx) (ts : List Tx),
      ((withPCGo prev ts).filterMap (fun x => x.1)).length = ts.length := by
  intro prev ts
  induction ts generalizing prev with
  | nil => rfl
  | cons t ts ih =>
      simp only [withPCGo]
      rw [List.filterMap_cons_some (f := fun x : Option ℚ × Tx => x.1) (by rfl)]
      simp only [List.length_cons]
      rw [ih]

lemma countSome_withPC {rows : List Tx} (h : rows ≠ []) :
    ((withPC rows).filterMap (fun x => x.1)).length = rows.length - 1 := by
  cases rows with
  | nil => exact absurd rfl h
  | cons t ts =>
      simp only [withPC]
      rw [List.filterMap_cons_none (f := fun x : Option ℚ × Tx => x.1) (by rfl)]
      rw [countSome_withPCGo]
      simp

lemma mem_side_events (side : Bool) {rows : List Tx} {c : ℚ} {t : Tx}
    (h : (some c, t) ∈ withPC rows) :
    evOf side t c ∈ (withPC rows).filterMap (fun x => x.1.map (evOf side x.2)) :=
  List.mem_filterMap.mpr ⟨(some c, t), h, rfl⟩

/-- **C10.** A transaction whose price change is defined and nonzero and
whose quantity is positive generates exactly one feedback event among its
two legs: the buyer leg is the feedback one after an uptick, the seller leg
after a downtick.  Consequently a session with at least two kept rows all
of whose diffed rows have nonzero price change and positive quantity is
reported with 2*(n-1) events and a feedback_rate of exactly 1/2. -/
theorem C10_half_feedback_rate (flag : Bool) (led : List Tx) (s : ℕ) :
    (∀ (c : ℚ) (t : Tx), (some c, t) ∈ withPC (rows04 flag led s) →
      c ≠ 0 → 0 < qv t →
      evOf true t c ∈ sessionEvents flag led s ∧
      evOf false t c ∈ sessionEvents flag led s ∧
      (evOf true t c).fb + (evOf false t c).fb = 1 ∧
      ((evOf true t c).fb = 1 ↔ 0 < c)) ∧
    (2 ≤ (rows04 flag led s).length →
      (∀ (c : ℚ) (t : Tx), (some c, t) ∈ withPC (rows04 flag led s) →
        c ≠ 0 ∧ 0 < qv t) →
      (s, (sessionEvents flag led s).length, rateOf (sessionEvents flag led s))
          ∈ sessionSummary flag led ∧
      (sessionEvents flag led s).length = 2 * ((rows04 flag led s).length - 1) ∧
      rateOf (sessionEvents flag led s) = 1 / 2) := by
  constructor
  · intro c t hmem hc hq
    have hpair := fbInd_pair hc hq
    refine ⟨List.mem_append_left _ (mem_side_events true hmem),
      List.mem_append_right _ (mem_side_events false hmem), ?_, ?_⟩
    · simpa [evOf] using hpair.1
    · simpa [evOf] using hpair.2
  · intro h2 hall
    have hrows : rows04 flag led s ≠ [] := by
      intro hnil
      rw [hnil] at h2
      simp at h2
    have hk := countSome_withPC hrows
    have hlen : (sessionEvents flag led s).length =
        2 * ((rows04 flag led s).length - 1) := by
      unfold sessionEvents buyerEvents sellerEvents
      rw [List.length_append, length_side_events, length_side_events, hk]
      omega
    have hsum : ((sessionEvents flag led s).map Ev.fb).sum =
        (((rows04 flag led s).length - 1 : ℕ) : ℚ) := by
      unfold sessionEvents buyerEvents sellerEvents
      rw [List.map_append, List.sum_append, sum_fb_events _ hall, hk]
    have hkpos : 0 < (rows04 flag led s).length - 1 := by omega
    have hkQ : (0 : ℚ) < (((rows04 flag led s).length - 1 : ℕ) : ℚ) := by
      exact_mod_cast hkpos
    have hrate : rateOf (sessionEvents flag led s) = 1 / 2 := by
      unfold rateOf
      rw [hsum, hlen]
      rw [show ((2 * ((rows04 flag led s).length - 1) : ℕ) : ℚ) =
          2 * (((rows04 flag led s).length - 1 : ℕ) : ℚ) by push_cast; ring]
      rw [div_eq_div_iff (by linarith) (by norm_num)]
      ring
    refine ⟨?_, hlen, hrate⟩
    have hne : sessionEvents flag led s ≠ [] := by
      intro hnil
      rw [hnil] at hlen
      simp at hlen
      omega
    have hs : s ∈ sessionKeys flag led := by
      obtain ⟨t, ht⟩ := List.exists_mem_of_ne_nil _ hrows
      have := mem_rows04 ht
      unfold sessionKeys
      rw [List.mem_dedup, List.mem_map]
      exact ⟨t, this.1, this.2⟩
    unfold sessionSummary
    rw [List.mem_filterMap]
    refine ⟨s, hs, ?_⟩
    rw [if_neg (by simpa [List.isEmpty_iff] using hne)]

theorem C10_witness :
    (evOf true ⟨2, 1, some 2, some 102, some 5, 30, 40⟩ 2
        ∈ sessionEvents false ledC10w 1 ∧
      evOf false ⟨2, 1, some 2, some 102, some 5, 30, 40⟩ 2
        ∈ sessionEvents false ledC10w 1 ∧
      (evOf true ⟨2, 1, some 2, some 102, some 5, 30, 40⟩ 2).fb +
        (evOf false ⟨2, 1, some 2, some 102, some 5, 30, 40⟩ 2).fb = 1 ∧
      ((evOf true ⟨2, 1, some 2, some 102, some 5, 30, 40⟩ 2).fb = 1 ↔
        0 < (2:ℚ))) ∧
    ((1, (sessionEvents false ledC10w 1).length,
        rateOf (sessionEvents false ledC10w 1)) ∈ sessionSummary false ledC10w ∧
      (sessionEvents false ledC10w 1).length =
        2 * ((rows04 false ledC10w 1).length - 1) ∧
      rateOf (sessionEvents false ledC10w 1) = 1 / 2) := by
  have h := C10_half_feedback_rate false ledC10w 1
  refine ⟨h.1 2 ⟨2, 1, some 2, some 102, some 5, 30, 40⟩ ?_ (by norm_num)
      (by norm_num [qv]), h.2 ?_ ?_⟩
  · norm_num [withPC, withPCGo, rows04, keep04, selfFilter, sortTs,
      List.insertionSort, List.orderedInsert, pv, tsv, ledC10w]
  · norm_num [rows04, keep04, selfFilter, sortTs, List.insertionSort,
      List.orderedInsert, tsv, ledC10w]
  · intro c t hmem
    norm_num [withPC, withPCGo, rows04, keep04, selfFilter, sortTs,
      List.insertionSort, List.orderedInsert, pv, tsv, ledC10w,
      Prod.mk.injEq] at hmem
    rcases hmem with ⟨hc, ht⟩ | ⟨hc, ht⟩
    · cases hc
    · cases hc
      subst ht
      norm_num [qv]

